import Mathlib

/-!
A shallow embedding of `syft/messaging/plan/state.py` (the `State` class of a
Plan) together with proofs about its operations: value extraction
(`tensors`), state snapshot (`clone_state_dict`), the hierarchical capture
algorithm (`read`), in-place rebinding (`set_`) and the serialization
protocol (`simplify` / `detail`).

The `PlaceHolder` class, the value type, and the worker registry are external
collaborators not present in the sources; their operations are modelled from
the spec and are marked `Modelled from the spec:` below.  Python object
identity, where the source depends on it (`parent_plan.state != self`, value
aliasing), is modelled by explicit `oid` fields; Python dicts are modelled by
insertion-ordered association lists with overwrite-in-place assignment.
Mutation is modelled by explicit state passing: each operation returns the
post-call value of every object the source mutates.
-/

set_option maxHeartbeats 1000000

namespace Syft

/-- Errors at this layer.  The only fatal condition is extracting the bound
value of a placeholder that has none (a precondition violation per the spec). -/
inductive Err where
  | unboundPlaceHolder
  deriving Repr, DecidableEq

/-- A concrete value (tensor) bound into a placeholder.  `oid` is Python
object identity (aliases of one runtime object share `oid`), `id` is the syft
identity used as registry key, `data` is the content. -/
structure Tensor where
  oid : Nat
  id : Nat
  data : Int
  deriving Repr, DecidableEq

/-- Modelled from the spec: the `PlaceHolder` class is external to the given
sources.  A placeholder is an identity-bearing slot with a set of string tags
and an optional bound value. -/
structure PlaceHolder where
  id : Nat
  tags : List String
  child : Option Tensor
  deriving Repr, DecidableEq

/-- Modelled from the spec: reading `placeholder.child`.  Extraction from an
unbound placeholder is a fatal precondition violation, modelled as an error. -/
def PlaceHolder.childVal (p : PlaceHolder) : Except Err Tensor :=
  match p.child with
  | some t => Except.ok t
  | none => Except.error Err.unboundPlaceHolder

/-- Modelled from the spec: `placeholder.copy()` produces a structural copy
(same id, tags and bound value; a fresh object). -/
def PlaceHolder.copy (p : PlaceHolder) : PlaceHolder := p

/-- Modelled from the spec: `placeholder.tag(...)` adds the given tags to the
placeholder's tag set. -/
def PlaceHolder.tag (p : PlaceHolder) (ts : List String) : PlaceHolder :=
  { p with tags := p.tags ++ ts }

/-- Modelled from the spec: `placeholder.instantiate(t)` rebinds the bound
value, replacing any prior binding. -/
def PlaceHolder.instantiate (p : PlaceHolder) (t : Tensor) : PlaceHolder :=
  { p with child := some t }

/-- Modelled from the spec: `tensor.clone()` returns an independent copy of a
value: same syft id and content, fresh object identity. -/
def Tensor.clone (t : Tensor) (freshOid : Nat) : Tensor :=
  { t with oid := freshOid }

/-- Python dict assignment on an insertion-ordered association list: an
existing key keeps its position and receives the new value, a new key is
appended at the end. -/
def dictInsert {α : Type} (k : Nat) (v : α) : List (Nat × α) → List (Nat × α)
  | [] => [(k, v)]
  | e :: rest => if e.fst = k then (k, v) :: rest else e :: dictInsert k v rest

/-- Python dict lookup on an association list (first match). -/
def dictGet {α : Type} (k : Nat) : List (Nat × α) → Option α
  | [] => none
  | e :: rest => if e.fst = k then some e.snd else dictGet k rest

/-- The State of a plan: an ordered sequence of placeholders.  `oid` models
Python object identity (`read` compares States by identity); `owner` is the
identity of the owning context (a plan or a worker). -/
structure State where
  oid : Nat
  owner : Nat
  state_placeholders : List PlaceHolder
  deriving Repr, DecidableEq

/-- The ancestor plan as `read` sees it: its own State, its map from
bound-value identity to placeholder, and its slot counter `var_count`. -/
structure Plan where
  state : State
  placeholders : List (Nat × PlaceHolder)
  var_count : Nat
  deriving Repr, DecidableEq

/-- A worker: an identity plus its registry from syft id to value. -/
structure Worker where
  oid : Nat
  registry : List (Nat × Tensor)
  deriving Repr, DecidableEq

/-- The accumulation loop of `tensors`. -/
def tensorsLoop : List PlaceHolder → Except Err (List Tensor)
  | [] => Except.ok []
  | p :: rest => do
    let t ← p.childVal
    let ts ← tensorsLoop rest
    pure (t :: ts)

/-- `State.tensors`: the bound values of all placeholders, in order. -/
def State.tensors (s : State) : Except Err (List Tensor) :=
  tensorsLoop s.state_placeholders

/-- The dict-comprehension loop of `clone_state_dict`, threading the supply of
fresh object identities. -/
def cloneFold (fresh : Nat) (d : List (Nat × Tensor)) :
    List PlaceHolder → Except Err (List (Nat × Tensor) × Nat)
  | [] => Except.ok (d, fresh)
  | p :: rest =>
    match p.child with
    | none => Except.error Err.unboundPlaceHolder
    | some t => cloneFold (fresh + 1) (dictInsert p.id (t.clone fresh) d) rest

/-- `State.clone_state_dict`: a dict from placeholder id to a clone of its
bound value.  Fresh object identities are drawn from the counter `fresh`; the
next unused identity is returned alongside the dict. -/
def State.clone_state_dict (s : State) (fresh : Nat) :
    Except Err (List (Nat × Tensor) × Nat) :=
  cloneFold fresh [] s.state_placeholders

/-- One promotion step of `State.read`: copy the placeholder, clear its tags,
tag it with the inner, state and positional markers, append it to the
ancestor State, key it in the ancestor map under the bound value's id, and
increment the slot counter. -/
def promoteOne (parent_plan : Plan) (ph : PlaceHolder) : Except Err Plan := do
  let c0 := ph.copy
  let c1 : PlaceHolder := { c0 with tags := [] }
  let c2 := c1.tag ["#inner", "#state", "#" ++ toString (parent_plan.var_count + 1)]
  let t ← c2.childVal
  pure { state := { parent_plan.state with
           state_placeholders := parent_plan.state.state_placeholders ++ [c2] },
         placeholders := dictInsert t.id c2 parent_plan.placeholders,
         var_count := parent_plan.var_count + 1 }

/-- The promotion loop of `State.read`, over the inner placeholders in order. -/
def promoteAll (parent_plan : Plan) : List PlaceHolder → Except Err Plan
  | [] => Except.ok parent_plan
  | ph :: rest => do
    let p1 ← promoteOne parent_plan ph
    promoteAll p1 rest

/-- The return path of `State.read`: the bound values of the placeholders not
tagged with the inner marker. -/
def readTensors : List PlaceHolder → Except Err (List Tensor)
  | [] => Except.ok []
  | p :: rest =>
    if p.tags.contains "#inner" then readTensors rest
    else do
      let t ← p.childVal
      let ts ← readTensors rest
      pure (t :: ts)

/-- `State.read`.  `init_plan` stands for `self.owner.init_plan`; the identity
comparison `parent_plan.state != self` is modelled by comparing State object
identities.  The result carries the collected values together with the
post-call value of the two mutable objects: `self` (no field of which the
source ever writes) and the ancestor plan. -/
def State.read (self_ : State) (init_plan : Option Plan) :
    Except Err (List Tensor × State × Option Plan) := do
  let init_plan1 ←
    match init_plan with
    | some parent_plan =>
      if parent_plan.state.oid ≠ self_.oid then do
        let p1 ← promoteAll parent_plan self_.state_placeholders
        pure (some p1)
      else
        pure (some parent_plan)
    | none => pure (none : Option Plan)
  let ts ← readTensors self_.state_placeholders
  pure (ts, self_, init_plan1)

/-- One dict entry applied by `State.set_`: every placeholder whose id equals
the key is rebound to the entry's value. -/
def setOne (s : State) (kv : Nat × Tensor) : State :=
  let phs := s.state_placeholders.map
    (fun p => if p.id = kv.fst then p.instantiate kv.snd else p)
  { s with state_placeholders := phs }

/-- `State.set_`: feed a dict of values; entries whose key matches no
placeholder are silently ignored. -/
def State.set_ (s : State) (state_dict : List (Nat × Tensor)) : State :=
  state_dict.foldl setOne s

/-- `worker.register_obj(obj, obj_id)`: register a value in the worker's
registry under the given id. -/
def Worker.register_obj (w : Worker) (t : Tensor) (obj_id : Nat) : Worker :=
  { w with registry := dictInsert obj_id t w.registry }

/-- `State.simplify`: the transport pair (simplified placeholder sequence,
simplified value sequence).  The external msgpack codec is abstracted by the
two functions `simpP` and `simpT`. -/
def State.simplify {α β : Type} (simpP : List PlaceHolder → α)
    (simpT : List Tensor → β) (state : State) : Except Err (α × β) := do
  let ts ← state.tensors
  pure (simpP state.state_placeholders, simpT ts)

/-- The positional binding loop of `State.detail`: Python `zip` pairs up to
the shorter sequence; placeholders beyond it are kept as decoded. -/
def instantiateZip : List PlaceHolder → List Tensor → List PlaceHolder
  | p :: ps, t :: ts => p.instantiate t :: instantiateZip ps ts
  | ps, _ => ps

/-- The registration loop of `State.detail`: every decoded value is
registered under its own id. -/
def registerAll (worker : Worker) (ts : List Tensor) : Worker :=
  ts.foldl (fun w t => w.register_obj t t.id) worker

/-- `State.detail`: decode both halves through the codec (abstracted by
`detP` and `detT`), register every decoded value under its own id, bind
values to placeholders positionally, and return the new State (a fresh
object `newOid`, owned by the worker) together with the updated worker. -/
def State.detail {α β : Type} (detP : α → List PlaceHolder)
    (detT : β → List Tensor) (worker : Worker) (state_tuple : α × β)
    (newOid : Nat) : State × Worker :=
  let state_placeholders := detP state_tuple.fst
  let state_elements := detT state_tuple.snd
  let worker1 := registerAll worker state_elements
  let bound := instantiateZip state_placeholders state_elements
  ({ oid := newOid, owner := worker.oid, state_placeholders := bound }, worker1)

/-- Modelled from the spec: in-place mutation of a value object.  Writing new
content through one reference updates every alias (same object identity);
applied to a State it rewrites the bound value of every placeholder aliasing
that object. -/
def mutateChild (oid : Nat) (d : Int) (p : PlaceHolder) : PlaceHolder :=
  let c := p.child.map (fun t => if t.oid = oid then { t with data := d } else t)
  { p with child := c }

def State.mutateTensor (s : State) (oid : Nat) (d : Int) : State :=
  { s with state_placeholders := s.state_placeholders.map (mutateChild oid d) }

/-- `n` successive calls of `read` on the same inner State, threading the
updated ancestor plan.  (When an ancestor is supplied, `read` always returns
one; the `none` fallback is unreachable.) -/
def iterateRead (s : State) : Nat → Plan → Except Err Plan
  | 0, p => Except.ok p
  | n + 1, p =>
    match s.read (some p) with
    | Except.error e => Except.error e
    | Except.ok (_, _, some p1) => iterateRead s n p1
    | Except.ok (_, _, none) => Except.error Err.unboundPlaceHolder

/-- The copy `read` appends for a placeholder when the ancestor slot counter
is `c`: same id and bound value, tags exactly the inner marker, the state
marker and the positional marker `c + 1`. -/
def promotedCopy (c : Nat) (ph : PlaceHolder) : PlaceHolder :=
  { id := ph.id, tags := ["#inner", "#state", "#" ++ toString (c + 1)],
    child := ph.child }

/-- The copies appended by one promotion round starting at slot counter `c`,
in the inner order. -/
def promotedList (c : Nat) : List PlaceHolder → List PlaceHolder
  | [] => []
  | ph :: rest => promotedCopy c ph :: promotedList (c + 1) rest

/-- The ancestor map contributed by one promotion round starting at slot
counter `c`: each bound-value id keyed to its promoted copy, in order. -/
def promotedAList (c : Nat) : List PlaceHolder → List (Nat × PlaceHolder)
  | [] => []
  | ph :: rest =>
    match ph.child with
    | some t => (t.id, promotedCopy c ph) :: promotedAList (c + 1) rest
    | none => promotedAList (c + 1) rest

/-- The ancestor map after one promotion round starting from map `m` and
slot counter `c`, written as a fold of dict inserts. -/
def promoteMapFold (c : Nat) (m : List (Nat × PlaceHolder)) :
    List PlaceHolder → List (Nat × PlaceHolder)
  | [] => m
  | ph :: rest =>
    match ph.child with
    | some t => promoteMapFold (c + 1) (dictInsert t.id (promotedCopy c ph) m) rest
    | none => promoteMapFold (c + 1) m rest

/-- The net effect of one `read` call on the ancestor plan when the inner
State is a different object: the promoted copies are appended, the map is
updated and the slot counter advances by the number of inner placeholders. -/
def roundPlan (inner : State) (p : Plan) : Plan :=
  { state := { oid := p.state.oid, owner := p.state.owner,
               state_placeholders :=
                 p.state.state_placeholders ++
                   promotedList p.var_count inner.state_placeholders },
    placeholders := promoteMapFold p.var_count p.placeholders inner.state_placeholders,
    var_count := p.var_count + inner.state_placeholders.length }

/-- The dict built by `clone_state_dict` when placeholder ids are distinct:
each placeholder id keyed to a clone of its bound value, fresh object
identities counted up from `fresh`. -/
def cloneList (fresh : Nat) : List PlaceHolder → List (Nat × Tensor)
  | [] => []
  | p :: rest =>
    match p.child with
    | some t => (p.id, t.clone fresh) :: cloneList (fresh + 1) rest
    | none => cloneList (fresh + 1) rest

/-- The bound-value ids of a placeholder sequence. -/
def childIds (phs : List PlaceHolder) : List Nat :=
  phs.filterMap (fun p => p.child.map Tensor.id)

/-- The bound values of a placeholder sequence (on fully bound sequences this
is what `tensors` returns). -/
def childList (phs : List PlaceHolder) : List Tensor :=
  phs.filterMap PlaceHolder.child

/-! ### Reduction lemmas for the `Except` monad -/

theorem exceptBind_ok {α β : Type} (a : α) (f : α → Except Err β) :
    (Except.ok a >>= f) = f a := rfl

theorem exceptBind_error {α β : Type} (e : Err) (f : α → Except Err β) :
    ((Except.error e : Except Err α) >>= f) = Except.error e := rfl

theorem exceptMap_ok {α β : Type} (f : α → β) (a : α) :
    (f <$> (Except.ok a : Except Err α)) = Except.ok (f a) := rfl

theorem exceptMap_error {α β : Type} (f : α → β) (e : Err) :
    (f <$> (Except.error e : Except Err α)) = Except.error e := rfl

/-! ### Association-list lemmas -/

theorem dictInsert_not_mem {α : Type} (k : Nat) (v : α) (m : List (Nat × α))
    (h : k ∉ m.map Prod.fst) : dictInsert k v m = m ++ [(k, v)] := by
  induction m with
  | nil => rfl
  | cons e rest ih =>
    simp only [List.map_cons, List.mem_cons] at h
    push_neg at h
    have hne : ¬ e.fst = k := fun he => h.1 he.symm
    simp [dictInsert, hne, ih h.2]

theorem dictInsert_mem_mid {α : Type} (k : Nat) (v w : α) (m1 m2 : List (Nat × α))
    (h : k ∉ m1.map Prod.fst) :
    dictInsert k v (m1 ++ (k, w) :: m2) = m1 ++ (k, v) :: m2 := by
  induction m1 with
  | nil => simp [dictInsert]
  | cons e rest ih =>
    simp only [List.map_cons, List.mem_cons] at h
    push_neg at h
    have hne : ¬ e.fst = k := fun he => h.1 he.symm
    simp [dictInsert, hne, ih h.2]

theorem dictGet_not_mem {α : Type} (k : Nat) (m : List (Nat × α))
    (h : k ∉ m.map Prod.fst) : dictGet k m = none := by
  induction m with
  | nil => rfl
  | cons e rest ih =>
    simp only [List.map_cons, List.mem_cons] at h
    push_neg at h
    have hne : ¬ e.fst = k := fun he => h.1 he.symm
    simp [dictGet, hne, ih h.2]

theorem dictGet_mem_mid {α : Type} (k : Nat) (v : α) (m1 m2 : List (Nat × α))
    (h : k ∉ m1.map Prod.fst) :
    dictGet k (m1 ++ (k, v) :: m2) = some v := by
  induction m1 with
  | nil => simp [dictGet]
  | cons e rest ih =>
    simp only [List.map_cons, List.mem_cons] at h
    push_neg at h
    have hne : ¬ e.fst = k := fun he => h.1 he.symm
    simp [dictGet, hne, ih h.2]

/-! ### Promotion-round lemmas -/

theorem promotedList_length (c : Nat) (phs : List PlaceHolder) :
    (promotedList c phs).length = phs.length := by
  induction phs generalizing c with
  | nil => rfl
  | cons ph rest ih => simp [promotedList, ih]

theorem promotedList_get (c : Nat) (phs : List PlaceHolder) (i : Nat) :
    (promotedList c phs)[i]? = (phs[i]?).map (promotedCopy (c + i)) := by
  induction phs generalizing c i with
  | nil => simp [promotedList]
  | cons ph rest ih =>
    cases i with
    | zero => simp [promotedList]
    | succ j =>
      simp only [promotedList, List.getElem?_cons_succ, ih (c + 1) j]
      have : c + 1 + j = c + (j + 1) := by omega
      rw [this]

theorem promoteOne_eq (p : Plan) (ph : PlaceHolder) (t : Tensor)
    (h : ph.child = some t) :
    promoteOne p ph = Except.ok
      { state := { p.state with state_placeholders :=
                     p.state.state_placeholders ++ [promotedCopy p.var_count ph] },
        placeholders := dictInsert t.id (promotedCopy p.var_count ph) p.placeholders,
        var_count := p.var_count + 1 } := by
  simp [promoteOne, PlaceHolder.copy, PlaceHolder.tag, PlaceHolder.childVal, h,
    promotedCopy]

theorem promoteAll_eq (phs : List PlaceHolder) (p : Plan)
    (hb : ∀ ph ∈ phs, ph.child.isSome) :
    promoteAll p phs = Except.ok
      { state := { oid := p.state.oid, owner := p.state.owner,
                   state_placeholders :=
                     p.state.state_placeholders ++ promotedList p.var_count phs },
        placeholders := promoteMapFold p.var_count p.placeholders phs,
        var_count := p.var_count + phs.length } := by
  induction phs generalizing p with
  | nil => simp [promoteAll, promotedList, promoteMapFold]
  | cons ph rest ih =>
    obtain ⟨t, ht⟩ := Option.isSome_iff_exists.mp (hb ph (by simp))
    have hrest : ∀ q ∈ rest, q.child.isSome := fun q hq => hb q (by simp [hq])
    rw [promoteAll, promoteOne_eq p ph t ht]
    simp only [exceptBind_ok]
    rw [ih _ hrest]
    simp only [promotedList, promoteMapFold, ht, List.append_assoc,
      List.singleton_append, List.length_cons]
    have h2 : p.var_count + 1 + rest.length = p.var_count + (rest.length + 1) := by
      omega
    rw [h2]

/-! ### Return-path and extraction lemmas -/

theorem readTensors_eq (phs : List PlaceHolder)
    (hb : ∀ p ∈ phs, p.tags.contains "#inner" = false → p.child.isSome) :
    readTensors phs =
      Except.ok (childList (phs.filter (fun p => ! p.tags.contains "#inner"))) := by
  induction phs with
  | nil => simp [readTensors, childList]
  | cons ph rest ih =>
    have hrest : ∀ p ∈ rest, p.tags.contains "#inner" = false → p.child.isSome :=
      fun p hp => hb p (by simp [hp])
    by_cases h : "#inner" ∈ ph.tags
    · simp [readTensors, h, ih hrest, List.filter_cons]
    · obtain ⟨t, ht⟩ := Option.isSome_iff_exists.mp
        (hb ph (by simp) (by simpa using h))
      simp [readTensors, h, PlaceHolder.childVal, ht, ih hrest, List.filter_cons,
        childList, exceptBind_ok]

theorem tensorsLoop_eq (phs : List PlaceHolder)
    (hb : ∀ p ∈ phs, p.child.isSome) :
    tensorsLoop phs = Except.ok (childList phs) := by
  induction phs with
  | nil => simp [tensorsLoop, childList]
  | cons ph rest ih =>
    obtain ⟨t, ht⟩ := Option.isSome_iff_exists.mp (hb ph (by simp))
    have hrest : ∀ p ∈ rest, p.child.isSome := fun p hp => hb p (by simp [hp])
    simp [tensorsLoop, PlaceHolder.childVal, ht, ih hrest, childList,
      exceptBind_ok, exceptMap_ok]

theorem tensorsLoop_unbound (phs : List PlaceHolder)
    (h : ∃ p ∈ phs, p.child = none) :
    tensorsLoop phs = Except.error Err.unboundPlaceHolder := by
  induction phs with
  | nil => simp at h
  | cons ph rest ih =>
    rcases h with ⟨p, hp, hnone⟩
    rcases List.mem_cons.mp hp with heq | hmem
    · subst heq
      simp [tensorsLoop, PlaceHolder.childVal, hnone, exceptBind_error]
    · cases hc : ph.child with
      | none => simp [tensorsLoop, PlaceHolder.childVal, hc, exceptBind_error]
      | some t =>
        simp [tensorsLoop, PlaceHolder.childVal, hc, ih ⟨p, hmem, hnone⟩,
          exceptBind_ok, exceptMap_error]

theorem dictGet_dictInsert_self {α : Type} (k : Nat) (v : α) (m : List (Nat × α)) :
    dictGet k (dictInsert k v m) = some v := by
  induction m with
  | nil => simp [dictInsert, dictGet]
  | cons e rest ih =>
    by_cases h : e.fst = k
    · simp [dictInsert, h, dictGet]
    · simp [dictInsert, h, dictGet, ih]

theorem dictGet_dictInsert_other {α : Type} (k k1 : Nat) (v : α)
    (m : List (Nat × α)) (h : k ≠ k1) :
    dictGet k (dictInsert k1 v m) = dictGet k m := by
  induction m with
  | nil => simp [dictInsert, dictGet, Ne.symm h]
  | cons e rest ih =>
    by_cases he : e.fst = k1
    · simp [dictInsert, he, dictGet, Ne.symm h, he ▸ (Ne.symm h)]
    · by_cases hek : e.fst = k
      · simp [dictInsert, he, dictGet, hek, h]
      · simp [dictInsert, he, dictGet, hek, ih]

/-! ### Registration lemmas -/

theorem registerAll_get_other (ts : List Tensor) (w : Worker) (k : Nat)
    (h : k ∉ ts.map Tensor.id) :
    dictGet k (registerAll w ts).registry = dictGet k w.registry := by
  induction ts generalizing w with
  | nil => rfl
  | cons t rest ih =>
    simp only [List.map_cons, List.mem_cons] at h
    push_neg at h
    have : registerAll w (t :: rest) = registerAll (w.register_obj t t.id) rest := rfl
    rw [this, ih _ h.2]
    simp [Worker.register_obj, dictGet_dictInsert_other k t.id t w.registry h.1]

theorem registerAll_get (ts : List Tensor) (w : Worker)
    (hnd : (ts.map Tensor.id).Nodup) :
    ∀ t ∈ ts, dictGet t.id (registerAll w ts).registry = some t := by
  induction ts generalizing w with
  | nil => intro t ht; simp at ht
  | cons t0 rest ih =>
    intro t ht
    simp only [List.map_cons, List.nodup_cons] at hnd
    have hstep : registerAll w (t0 :: rest) = registerAll (w.register_obj t0 t0.id) rest := rfl
    rcases List.mem_cons.mp ht with heq | hmem
    · subst heq
      rw [hstep, registerAll_get_other rest _ t.id hnd.1]
      simp [Worker.register_obj, dictGet_dictInsert_self]
    · exact hstep ▸ ih (w.register_obj t0 t0.id) hnd.2 t hmem

/-! ### Positional-binding lemmas -/

theorem instantiateZip_length (ps : List PlaceHolder) (ts : List Tensor) :
    (instantiateZip ps ts).length = ps.length := by
  induction ps generalizing ts with
  | nil => cases ts <;> rfl
  | cons p ps ih => cases ts with
    | nil => rfl
    | cons t ts => simp [instantiateZip, ih]

theorem instantiateZip_get_lt (ps : List PlaceHolder) (ts : List Tensor)
    (i : Nat) (p : PlaceHolder) (t : Tensor)
    (hp : ps[i]? = some p) (ht : ts[i]? = some t) :
    (instantiateZip ps ts)[i]? = some (p.instantiate t) := by
  induction ps generalizing ts i with
  | nil => simp at hp
  | cons p0 ps ih =>
    cases ts with
    | nil => simp at ht
    | cons t0 ts =>
      cases i with
      | zero =>
        simp only [List.getElem?_cons_zero, Option.some.injEq] at hp ht
        subst hp; subst ht
        simp [instantiateZip]
      | succ j =>
        simp only [List.getElem?_cons_succ] at hp ht
        simp [instantiateZip, ih ts j hp ht]

theorem instantiateZip_get_ge (ps : List PlaceHolder) (ts : List Tensor)
    (i : Nat) (h : ts.length ≤ i) :
    (instantiateZip ps ts)[i]? = ps[i]? := by
  induction ps generalizing ts i with
  | nil => cases ts <;> rfl
  | cons p0 ps ih =>
    cases ts with
    | nil => rfl
    | cons t0 ts =>
      cases i with
      | zero => simp at h
      | succ j =>
        simp only [List.length_cons, Nat.add_le_add_iff_right] at h
        simp [instantiateZip, ih ts j h]

theorem instantiateZip_self (ps : List PlaceHolder)
    (hb : ∀ p ∈ ps, p.child.isSome) :
    instantiateZip ps (childList ps) = ps := by
  induction ps with
  | nil => rfl
  | cons p ps ih =>
    obtain ⟨t, ht⟩ := Option.isSome_iff_exists.mp (hb p (by simp))
    have hrest : ∀ q ∈ ps, q.child.isSome := fun q hq => hb q (by simp [hq])
    have hpt : p.instantiate t = p := by
      cases p with
      | mk id tags child => simp [PlaceHolder.instantiate] at ht ⊢; exact ht.symm
    have hcl : childList (p :: ps) = t :: childList ps := by simp [childList, ht]
    rw [hcl]
    simp only [instantiateZip]
    rw [hpt, ih hrest]

/-! ### Bound-value id lemmas -/

theorem childIds_cons_some (ph : PlaceHolder) (rest : List PlaceHolder)
    (t : Tensor) (ht : ph.child = some t) :
    childIds (ph :: rest) = t.id :: childIds rest := by
  simp [childIds, ht]

theorem childIds_mem (phs : List PlaceHolder) (p : PlaceHolder) (t : Tensor)
    (hp : p ∈ phs) (ht : p.child = some t) : t.id ∈ childIds phs := by
  simp only [childIds, List.mem_filterMap]
  exact ⟨p, hp, by simp [ht]⟩

/-! ### Promoted-map lemmas -/

theorem promotedAList_keys (c : Nat) (phs : List PlaceHolder)
    (hb : ∀ p ∈ phs, p.child.isSome) :
    (promotedAList c phs).map Prod.fst = childIds phs := by
  induction phs generalizing c with
  | nil => rfl
  | cons ph rest ih =>
    obtain ⟨t, ht⟩ := Option.isSome_iff_exists.mp (hb ph (by simp))
    have hrest : ∀ q ∈ rest, q.child.isSome := fun q hq => hb q (by simp [hq])
    simp [promotedAList, ht, childIds_cons_some ph rest t ht, ih (c + 1) hrest]

theorem promotedAList_length (c : Nat) (phs : List PlaceHolder)
    (hb : ∀ p ∈ phs, p.child.isSome) :
    (promotedAList c phs).length = phs.length := by
  induction phs generalizing c with
  | nil => rfl
  | cons ph rest ih =>
    obtain ⟨t, ht⟩ := Option.isSome_iff_exists.mp (hb ph (by simp))
    have hrest : ∀ q ∈ rest, q.child.isSome := fun q hq => hb q (by simp [hq])
    simp [promotedAList, ht, ih (c + 1) hrest]

theorem promotedAList_get (c : Nat) (phs : List PlaceHolder)
    (hnd : (childIds phs).Nodup) (hb : ∀ p ∈ phs, p.child.isSome) :
    ∀ j ph t, phs[j]? = some ph → ph.child = some t →
      dictGet t.id (promotedAList c phs) = some (promotedCopy (c + j) ph) := by
  induction phs generalizing c with
  | nil => intro j ph t hj; simp at hj
  | cons ph0 rest ih =>
    intro j ph t hj ht
    obtain ⟨t0, ht0⟩ := Option.isSome_iff_exists.mp (hb ph0 (by simp))
    rw [childIds_cons_some ph0 rest t0 ht0] at hnd
    simp only [List.nodup_cons] at hnd
    have hrest : ∀ q ∈ rest, q.child.isSome := fun q hq => hb q (by simp [hq])
    cases j with
    | zero =>
      simp only [List.getElem?_cons_zero, Option.some.injEq] at hj
      subst hj
      rw [ht] at ht0
      injection ht0 with ht0
      subst ht0
      simp [promotedAList, ht, dictGet]
    | succ i =>
      simp only [List.getElem?_cons_succ] at hj
      have hmem : ph ∈ rest := by
        rcases List.getElem?_eq_some.mp hj with ⟨hlt, hval⟩
        exact hval ▸ List.getElem_mem hlt
      have htid : t.id ∈ childIds rest := childIds_mem rest ph t hmem ht
      have hne : ¬ t0.id = t.id := fun he => hnd.1 (he ▸ htid)
      have := ih (c + 1) hnd.2 hrest i ph t hj ht
      simp only [promotedAList, ht0]
      simp only [dictGet, hne, if_neg hne]
      rw [this]
      have h2 : c + 1 + i = c + (i + 1) := by omega
      rw [h2]
      simp

theorem promoteMapFold_disjoint (phs : List PlaceHolder) (c : Nat)
    (m : List (Nat × PlaceHolder))
    (hdis : ∀ k ∈ childIds phs, k ∉ m.map Prod.fst)
    (hnd : (childIds phs).Nodup)
    (hb : ∀ p ∈ phs, p.child.isSome) :
    promoteMapFold c m phs = m ++ promotedAList c phs := by
  induction phs generalizing c m with
  | nil => simp [promoteMapFold, promotedAList]
  | cons ph rest ih =>
    obtain ⟨t, ht⟩ := Option.isSome_iff_exists.mp (hb ph (by simp))
    rw [childIds_cons_some ph rest t ht] at hdis hnd
    simp only [List.nodup_cons] at hnd
    have hrest : ∀ q ∈ rest, q.child.isSome := fun q hq => hb q (by simp [hq])
    simp only [promoteMapFold, ht]
    rw [dictInsert_not_mem t.id (promotedCopy c ph) m (hdis t.id (by simp))]
    rw [ih (c + 1) _ ?_ hnd.2 hrest]
    · simp [promotedAList, ht, List.append_assoc]
    · intro k hk
      simp only [List.map_append, List.mem_append, List.map_cons]
      push_neg
      refine ⟨hdis k (by simp [hk]), ?_⟩
      simp only [List.map_nil, List.mem_singleton]
      exact fun he => hnd.1 (he ▸ hk)

theorem promoteMapFold_overwrite (phs : List PlaceHolder) (c : Nat)
    (m1 m2 : List (Nat × PlaceHolder))
    (hkeys : m2.map Prod.fst = childIds phs)
    (hdis : ∀ k ∈ childIds phs, k ∉ m1.map Prod.fst)
    (hnd : (childIds phs).Nodup)
    (hb : ∀ p ∈ phs, p.child.isSome) :
    promoteMapFold c (m1 ++ m2) phs = m1 ++ promotedAList c phs := by
  induction phs generalizing c m1 m2 with
  | nil =>
    have h2 : m2 = [] := by
      have : m2.map Prod.fst = [] := by simpa [childIds] using hkeys
      simpa using this
    subst h2
    simp [promoteMapFold, promotedAList]
  | cons ph rest ih =>
    obtain ⟨t, ht⟩ := Option.isSome_iff_exists.mp (hb ph (by simp))
    rw [childIds_cons_some ph rest t ht] at hkeys hdis hnd
    simp only [List.nodup_cons] at hnd
    have hrest : ∀ q ∈ rest, q.child.isSome := fun q hq => hb q (by simp [hq])
    cases m2 with
    | nil => simp at hkeys
    | cons e m2t =>
      simp only [List.map_cons, List.cons.injEq] at hkeys
      have he : e = (t.id, e.snd) := by
        rw [← hkeys.1]
      simp only [promoteMapFold, ht]
      rw [he]
      rw [dictInsert_mem_mid t.id (promotedCopy c ph) e.snd m1 m2t
        (hdis t.id (by simp))]
      have hmid : m1 ++ (t.id, promotedCopy c ph) :: m2t =
          (m1 ++ [(t.id, promotedCopy c ph)]) ++ m2t := by
        simp
      rw [hmid]
      rw [ih (c + 1) _ _ hkeys.2 ?_ hnd.2 hrest]
      · simp [promotedAList, ht, List.append_assoc]
      · intro k hk
        simp only [List.map_append, List.mem_append, List.map_cons]
        push_neg
        refine ⟨hdis k (by simp [hk]), ?_⟩
        simp only [List.map_nil, List.mem_singleton]
        exact fun he2 => hnd.1 (he2 ▸ hk)

/-! ### Clone lemmas -/

theorem cloneFold_eq (phs : List PlaceHolder) (fresh : Nat)
    (d : List (Nat × Tensor))
    (hdis : ∀ p ∈ phs, p.id ∉ d.map Prod.fst)
    (hnd : (phs.map PlaceHolder.id).Nodup)
    (hb : ∀ p ∈ phs, p.child.isSome) :
    cloneFold fresh d phs = Except.ok (d ++ cloneList fresh phs, fresh + phs.length) := by
  induction phs generalizing fresh d with
  | nil => simp [cloneFold, cloneList]
  | cons p rest ih =>
    obtain ⟨t, ht⟩ := Option.isSome_iff_exists.mp (hb p (by simp))
    simp only [List.map_cons, List.nodup_cons] at hnd
    have hrest : ∀ q ∈ rest, q.child.isSome := fun q hq => hb q (by simp [hq])
    simp only [cloneFold, ht]
    rw [dictInsert_not_mem p.id (t.clone fresh) d (hdis p (by simp))]
    rw [ih (fresh + 1) _ ?_ hnd.2 hrest]
    · simp only [cloneList, ht, List.append_assoc, List.singleton_append,
        List.length_cons]
      have h2 : fresh + 1 + rest.length = fresh + (rest.length + 1) := by omega
      rw [h2]
    · intro q hq
      simp only [List.map_append, List.mem_append, List.map_cons]
      push_neg
      refine ⟨hdis q (by simp [hq]), ?_⟩
      simp only [List.map_nil, List.mem_singleton]
      intro he
      exact hnd.1 (he ▸ (List.mem_map_of_mem PlaceHolder.id hq))

theorem cloneList_oid_ge (fresh : Nat) (phs : List PlaceHolder) :
    ∀ e ∈ cloneList fresh phs, fresh ≤ e.snd.oid := by
  induction phs generalizing fresh with
  | nil => intro e he; simp [cloneList] at he
  | cons p rest ih =>
    intro e he
    cases hc : p.child with
    | none =>
      rw [cloneList, hc] at he
      exact Nat.le_of_succ_le (ih (fresh + 1) e he)
    | some t =>
      rw [cloneList, hc] at he
      rcases List.mem_cons.mp he with heq | hmem
      · subst heq; simp [Tensor.clone]
      · exact Nat.le_of_succ_le (ih (fresh + 1) e hmem)

theorem cloneList_get (fresh : Nat) (phs : List PlaceHolder)
    (hnd : (phs.map PlaceHolder.id).Nodup) :
    ∀ p ∈ phs, ∀ t, p.child = some t →
      ∃ c, dictGet p.id (cloneList fresh phs) = some c ∧
        c.id = t.id ∧ c.data = t.data ∧ fresh ≤ c.oid := by
  induction phs generalizing fresh with
  | nil => intro p hp; simp at hp
  | cons p0 rest ih =>
    intro p hp t ht
    simp only [List.map_cons, List.nodup_cons] at hnd
    rcases List.mem_cons.mp hp with heq | hmem
    · subst heq
      refine ⟨t.clone fresh, ?_, rfl, rfl, Nat.le_refl fresh⟩
      simp [cloneList, ht, dictGet]
    · have hne : ¬ p0.id = p.id := fun he =>
        hnd.1 (he ▸ (List.mem_map_of_mem PlaceHolder.id hmem))
      obtain ⟨c, hc, hcid, hcdata, hcoid⟩ := ih (fresh + 1) hnd.2 p hmem t ht
      cases hc0 : p0.child with
      | none =>
        refine ⟨c, ?_, hcid, hcdata, Nat.le_of_succ_le hcoid⟩
        rw [cloneList, hc0]
        exact hc
      | some t0 =>
        refine ⟨c, ?_, hcid, hcdata, Nat.le_of_succ_le hcoid⟩
        rw [cloneList, hc0]
        simp only [dictGet, hne, if_neg hne]
        exact hc

/-! ### Mutation lemmas -/

theorem mutateChild_noop (oid : Nat) (v : Int) (p : PlaceHolder)
    (h : ∀ t, p.child = some t → t.oid ≠ oid) :
    mutateChild oid v p = p := by
  cases p with
  | mk pid ptags pchild =>
    cases pchild with
    | none => rfl
    | some t =>
      have : t.oid ≠ oid := h t rfl
      simp [mutateChild, this]

theorem mutateTensor_noop (s : State) (oid : Nat) (v : Int)
    (h : ∀ p ∈ s.state_placeholders, ∀ t, p.child = some t → t.oid ≠ oid) :
    s.mutateTensor oid v = s := by
  cases s with
  | mk soid sowner phs =>
    simp only [State.mutateTensor, State.mk.injEq, true_and]
    have : ∀ p ∈ phs, mutateChild oid v p = p := fun p hp =>
      mutateChild_noop oid v p (h p hp)
    calc phs.map (mutateChild oid v) = phs.map id := List.map_congr_left this
    _ = phs := List.map_id phs

/-! ### Rebinding lemmas -/

theorem setOne_get (s : State) (kv : Nat × Tensor) (i : Nat) :
    (setOne s kv).state_placeholders[i]? =
      (s.state_placeholders[i]?).map
        (fun p => if p.id = kv.fst then p.instantiate kv.snd else p) := by
  simp [setOne, List.getElem?_map]

theorem set_get (d : List (Nat × Tensor)) (s : State)
    (hd : (d.map Prod.fst).Nodup) :
    ∀ (i : Nat) (p : PlaceHolder), s.state_placeholders[i]? = some p →
      (s.set_ d).state_placeholders[i]? =
        some (match dictGet p.id d with
              | some t => { p with child := some t }
              | none => p) := by
  induction d generalizing s with
  | nil => intro i p hp; simp [State.set_, dictGet, hp]
  | cons kv d ih =>
    intro i p hp
    simp only [List.map_cons, List.nodup_cons] at hd
    have hstep : s.set_ (kv :: d) = (setOne s kv).set_ d := rfl
    rw [hstep]
    by_cases hid : p.id = kv.fst
    · have hp1 : (setOne s kv).state_placeholders[i]? =
          some (p.instantiate kv.snd) := by
        rw [setOne_get, hp]; simp [hid]
      rw [ih (setOne s kv) hd.2 i (p.instantiate kv.snd) hp1]
      have hnone : dictGet (p.instantiate kv.snd).id d = none := by
        apply dictGet_not_mem
        simp only [PlaceHolder.instantiate]
        exact hid ▸ hd.1
      rw [hnone]
      have hsome : dictGet p.id (kv :: d) = some kv.snd := by
        simp [dictGet, hid.symm]
      rw [hsome]
      simp [PlaceHolder.instantiate]
    · have hp1 : (setOne s kv).state_placeholders[i]? = some p := by
        rw [setOne_get, hp]; simp [hid]
      rw [ih (setOne s kv) hd.2 i p hp1]
      have hsame : dictGet p.id (kv :: d) = dictGet p.id d := by
        simp only [dictGet]
        rw [if_neg (fun he => hid he.symm)]
      rw [hsame]

theorem set_oid (d : List (Nat × Tensor)) (s : State) :
    (s.set_ d).oid = s.oid ∧ (s.set_ d).owner = s.owner ∧
      (s.set_ d).state_placeholders.length = s.state_placeholders.length := by
  induction d generalizing s with
  | nil => exact ⟨rfl, rfl, rfl⟩
  | cons kv d ih =>
    have hstep : s.set_ (kv :: d) = (setOne s kv).set_ d := rfl
    rw [hstep]
    obtain ⟨h1, h2, h3⟩ := ih (setOne s kv)
    exact ⟨h1, h2, by rw [h3]; simp [setOne]⟩

/-! ### `read` characterization lemmas -/

theorem read_eq_promote (s : State) (p : Plan)
    (hne : p.state.oid ≠ s.oid)
    (hb : ∀ q ∈ s.state_placeholders, q.child.isSome) :
    s.read (some p) = Except.ok
      (childList (s.state_placeholders.filter (fun q => ! q.tags.contains "#inner")),
       s, some (roundPlan s p)) := by
  have hb2 : ∀ q ∈ s.state_placeholders,
      q.tags.contains "#inner" = false → q.child.isSome := fun q hq _ => hb q hq
  rw [State.read]
  simp only [if_pos hne]
  rw [promoteAll_eq s.state_placeholders p hb]
  simp only [exceptBind_ok]
  rw [readTensors_eq s.state_placeholders hb2]
  simp only [exceptBind_ok]
  rfl

theorem read_eq_self (s : State) (p : Plan)
    (heq : p.state.oid = s.oid)
    (hb2 : ∀ q ∈ s.state_placeholders,
      q.tags.contains "#inner" = false → q.child.isSome) :
    s.read (some p) = Except.ok
      (childList (s.state_placeholders.filter (fun q => ! q.tags.contains "#inner")),
       s, some p) := by
  rw [State.read]
  simp only [if_neg (by simpa using heq : ¬ p.state.oid ≠ s.oid)]
  rw [readTensors_eq s.state_placeholders hb2]
  rfl

theorem read_eq_none (s : State)
    (hb2 : ∀ q ∈ s.state_placeholders,
      q.tags.contains "#inner" = false → q.child.isSome) :
    s.read none = Except.ok
      (childList (s.state_placeholders.filter (fun q => ! q.tags.contains "#inner")),
       s, none) := by
  rw [State.read]
  rw [readTensors_eq s.state_placeholders hb2]
  rfl

theorem childList_filter_mem (phs : List PlaceHolder) (t : Tensor)
    (h : t ∈ childList (phs.filter (fun q => ! q.tags.contains "#inner"))) :
    ∃ q ∈ phs, q.child = some t := by
  simp only [childList, List.mem_filterMap] at h
  obtain ⟨q, hq, hc⟩ := h
  exact ⟨q, List.mem_of_mem_filter hq, hc⟩

/-! ### Claim C1 -/

/-- **C1.**  A `read()` on an inner State whose owner's `init_plan` is set and
whose plan's State is a different object, with the inner State holding `K`
placeholders and the ancestor slot counter at `C`: the call succeeds, the
ancestor's counter becomes `C + K`, exactly `K` placeholder copies are
appended at the end of the ancestor's `state_placeholders` in the inner
order, the copy made from the `i`-th inner placeholder (0-based) keeps its id
and bound value and carries exactly the three tags `#inner`, `#state` and `#`
followed by `C + i + 1`, and every placeholder already present in the
ancestor's State — tags included — is unchanged (the old sequence is a
preserved prefix).  All inner placeholders are assumed bound, since promotion
reads `placeholder.child.id`. -/
theorem read_promotion_spec (inner : State) (parent : Plan)
    (hne : parent.state.oid ≠ inner.oid)
    (hb : ∀ q ∈ inner.state_placeholders, q.child.isSome) :
    ∃ ts parent1,
      inner.read (some parent) = Except.ok (ts, inner, some parent1) ∧
      parent1.var_count = parent.var_count + inner.state_placeholders.length ∧
      parent1.state.state_placeholders =
        parent.state.state_placeholders ++
          promotedList parent.var_count inner.state_placeholders ∧
      (promotedList parent.var_count inner.state_placeholders).length =
        inner.state_placeholders.length ∧
      (∀ (i : Nat) (q : PlaceHolder), inner.state_placeholders[i]? = some q →
        (promotedList parent.var_count inner.state_placeholders)[i]? =
          some { id := q.id,
                 tags := ["#inner", "#state",
                          "#" ++ toString (parent.var_count + i + 1)],
                 child := q.child }) := by
  refine ⟨_, roundPlan inner parent, read_eq_promote inner parent hne hb, rfl, rfl,
    promotedList_length _ _, ?_⟩
  intro i q hq
  rw [promotedList_get, hq]
  rfl

/-- Witness for C1 at a concrete input: one bound placeholder promoted into a
fresh ancestor plan with slot counter 0. -/
theorem read_promotion_spec_witness :
    (2 : Nat) ≠ 1 ∧
    ∃ ts parent1,
      State.read ⟨1, 0, [⟨10, [], some ⟨0, 100, 5⟩⟩]⟩ (some ⟨⟨2, 0, []⟩, [], 0⟩) =
        Except.ok (ts, ⟨1, 0, [⟨10, [], some ⟨0, 100, 5⟩⟩]⟩, some parent1) ∧
      parent1.var_count = 0 + 1 :=
  ⟨by decide, by
    obtain ⟨ts, p1, h1, h2, _⟩ :=
      read_promotion_spec ⟨1, 0, [⟨10, [], some ⟨0, 100, 5⟩⟩]⟩ ⟨⟨2, 0, []⟩, [], 0⟩
        (by decide) (by decide)
    exact ⟨ts, p1, h1, h2⟩⟩

/-! ### Claim C3 -/

/-- **C3 counterexample.**  The claim says a second `read()` on the same inner
State excludes the previously promoted placeholders from the returned value
list.  It does not: promotion tags only the *copies* appended to the
ancestor's State, never the inner State's own placeholders, so the inner
placeholders carry no `#inner` tag and the second read returns the promoted
value `⟨0, 100, 5⟩` again (and re-promotes it, appending a second copy tagged
`#2` to the ancestor). -/
theorem read_second_read_counterexample :
    State.read ⟨1, 0, [⟨10, [], some ⟨0, 100, 5⟩⟩]⟩ (some ⟨⟨2, 0, []⟩, [], 0⟩) =
      Except.ok ([⟨0, 100, 5⟩], ⟨1, 0, [⟨10, [], some ⟨0, 100, 5⟩⟩]⟩,
        some ⟨⟨2, 0, [⟨10, ["#inner", "#state", "#1"], some ⟨0, 100, 5⟩⟩]⟩,
              [(100, ⟨10, ["#inner", "#state", "#1"], some ⟨0, 100, 5⟩⟩)], 1⟩) ∧
    State.read ⟨1, 0, [⟨10, [], some ⟨0, 100, 5⟩⟩]⟩
        (some ⟨⟨2, 0, [⟨10, ["#inner", "#state", "#1"], some ⟨0, 100, 5⟩⟩]⟩,
               [(100, ⟨10, ["#inner", "#state", "#1"], some ⟨0, 100, 5⟩⟩)], 1⟩) =
      Except.ok ([⟨0, 100, 5⟩], ⟨1, 0, [⟨10, [], some ⟨0, 100, 5⟩⟩]⟩,
        some ⟨⟨2, 0, [⟨10, ["#inner", "#state", "#1"], some ⟨0, 100, 5⟩⟩,
                      ⟨10, ["#inner", "#state", "#2"], some ⟨0, 100, 5⟩⟩]⟩,
              [(100, ⟨10, ["#inner", "#state", "#2"], some ⟨0, 100, 5⟩⟩)], 2⟩) ∧
    (⟨0, 100, 5⟩ : Tensor) ∈ [(⟨0, 100, 5⟩ : Tensor)] :=
  ⟨rfl, rfl, by decide⟩

/-- **C3 amended.**  A second `read()` on the same inner State returns exactly
the same value list as the first: the return path excludes only placeholders
tagged `#inner`, and promotion never tags the inner State's own placeholders
(only the copies appended to the ancestor carry `#inner`), so the previously
promoted values are all returned — and re-promoted — again.  The returned
list is, on every round, the bound values of the receiver's placeholders not
tagged `#inner`, while the receiver's `state_placeholders` is unchanged. -/
theorem read_second_round (inner : State) (parent : Plan)
    (hne : parent.state.oid ≠ inner.oid)
    (hb : ∀ q ∈ inner.state_placeholders, q.child.isSome) :
    ∃ ts parent1 parent2,
      inner.read (some parent) = Except.ok (ts, inner, some parent1) ∧
      inner.read (some parent1) = Except.ok (ts, inner, some parent2) ∧
      ts = childList (inner.state_placeholders.filter
        (fun q => ! q.tags.contains "#inner")) :=
  ⟨_, roundPlan inner parent, roundPlan inner (roundPlan inner parent),
    read_eq_promote inner parent hne hb,
    read_eq_promote inner (roundPlan inner parent) hne hb, rfl⟩

/-- Witness for the amended C3 at a concrete input. -/
theorem read_second_round_witness :
    (2 : Nat) ≠ 1 ∧
    ∃ ts parent1 parent2,
      State.read ⟨1, 0, [⟨10, [], some ⟨0, 100, 5⟩⟩]⟩ (some ⟨⟨2, 0, []⟩, [], 0⟩) =
        Except.ok (ts, ⟨1, 0, [⟨10, [], some ⟨0, 100, 5⟩⟩]⟩, some parent1) ∧
      State.read ⟨1, 0, [⟨10, [], some ⟨0, 100, 5⟩⟩]⟩ (some parent1) =
        Except.ok (ts, ⟨1, 0, [⟨10, [], some ⟨0, 100, 5⟩⟩]⟩, some parent2) ∧
      ts = childList ((⟨1, 0, [⟨10, [], some ⟨0, 100, 5⟩⟩]⟩ : State).state_placeholders.filter
        (fun q => ! q.tags.contains "#inner")) :=
  ⟨by decide,
    read_second_round ⟨1, 0, [⟨10, [], some ⟨0, 100, 5⟩⟩]⟩ ⟨⟨2, 0, []⟩, [], 0⟩
      (by decide) (by decide)⟩

/-! ### Claim C7 -/

/-- **C7.**  `read` leaves the State it is called on unchanged: the post-call
`self` returned is the argument itself, so its placeholder sequence and each
placeholder's tags and bound value are identical before and after.  The only
structure `read` updates is the ancestor plan: its State keeps its object
identity and owner and its placeholder sequence is only appended to (the
existing prefix, tags included, is preserved), while the ancestor's map and
slot counter are updated.  Every returned value is a value bound in the
receiver before the call. -/
theorem read_frame (s : State) (ip : Option Plan)
    (hb : ∀ q ∈ s.state_placeholders, q.child.isSome) :
    ∃ ts ip1, s.read ip = Except.ok (ts, s, ip1) ∧
      (ip = none → ip1 = none) ∧
      (∀ p : Plan, ip = some p → ∃ p1 app, ip1 = some p1 ∧
        p1.state.oid = p.state.oid ∧ p1.state.owner = p.state.owner ∧
        p1.state.state_placeholders = p.state.state_placeholders ++ app ∧
        p.var_count ≤ p1.var_count) ∧
      (∀ t ∈ ts, ∃ q ∈ s.state_placeholders, q.child = some t) := by
  have hb2 : ∀ q ∈ s.state_placeholders,
      q.tags.contains "#inner" = false → q.child.isSome := fun q hq _ => hb q hq
  cases ip with
  | none =>
    refine ⟨_, none, read_eq_none s hb2, fun _ => rfl, ?_, ?_⟩
    · intro p hp; cases hp
    · intro t ht; exact childList_filter_mem s.state_placeholders t ht
  | some p =>
    by_cases heq : p.state.oid = s.oid
    · refine ⟨_, some p, read_eq_self s p heq hb2, ?_, ?_, ?_⟩
      · intro h; cases h
      · intro p2 hp2
        injection hp2 with hp2
        subst hp2
        exact ⟨p, [], rfl, rfl, rfl, by simp, Nat.le_refl _⟩
      · intro t ht; exact childList_filter_mem s.state_placeholders t ht
    · refine ⟨_, some (roundPlan s p), read_eq_promote s p heq hb, ?_, ?_, ?_⟩
      · intro h; cases h
      · intro p2 hp2
        injection hp2 with hp2
        subst hp2
        exact ⟨roundPlan s p, promotedList p.var_count s.state_placeholders,
          rfl, rfl, rfl, rfl, Nat.le_add_right _ _⟩
      · intro t ht; exact childList_filter_mem s.state_placeholders t ht

/-- Witness for C7 at a concrete input (ancestor supplied). -/
theorem read_frame_witness :
    ∃ ts ip1,
      State.read ⟨1, 0, [⟨10, [], some ⟨0, 100, 5⟩⟩]⟩ (some ⟨⟨2, 0, []⟩, [], 0⟩) =
        Except.ok (ts, ⟨1, 0, [⟨10, [], some ⟨0, 100, 5⟩⟩]⟩, ip1) ∧
      ((some ⟨⟨2, 0, []⟩, [], 0⟩ : Option Plan) = none → ip1 = none) ∧
      (∀ p : Plan, (some ⟨⟨2, 0, []⟩, [], 0⟩ : Option Plan) = some p →
        ∃ p1 app, ip1 = some p1 ∧
          p1.state.oid = p.state.oid ∧ p1.state.owner = p.state.owner ∧
          p1.state.state_placeholders = p.state.state_placeholders ++ app ∧
          p.var_count ≤ p1.var_count) ∧
      (∀ t ∈ ts, ∃ q ∈ (⟨1, 0, [⟨10, [], some ⟨0, 100, 5⟩⟩]⟩ : State).state_placeholders,
        q.child = some t) :=
  read_frame ⟨1, 0, [⟨10, [], some ⟨0, 100, 5⟩⟩]⟩ (some ⟨⟨2, 0, []⟩, [], 0⟩)
    (by decide)

/-! ### Claim C6 -/

/-- **C6.**  `tensors()` on a State in which every placeholder holds a bound
value returns the list of those bound values in placeholder order; on a State
containing a placeholder with no bound value it fails as a fatal precondition
violation instead of returning a result.  (Extraction from an unbound
placeholder is modelled from the spec, the PlaceHolder class being external
to the sources.) -/
theorem tensors_spec (s : State) :
    ((∀ q ∈ s.state_placeholders, q.child.isSome) →
      s.tensors = Except.ok (childList s.state_placeholders)) ∧
    ((∃ q ∈ s.state_placeholders, q.child = none) →
      s.tensors = Except.error Err.unboundPlaceHolder) :=
  ⟨fun hb => tensorsLoop_eq s.state_placeholders hb,
   fun h => tensorsLoop_unbound s.state_placeholders h⟩

/-- Witness for C6: a fully bound State and a State with an unbound
placeholder. -/
theorem tensors_spec_witness :
    State.tensors ⟨1, 0, [⟨10, [], some ⟨0, 100, 5⟩⟩]⟩ =
      Except.ok (childList [⟨10, [], some ⟨0, 100, 5⟩⟩]) ∧
    State.tensors ⟨2, 0, [⟨11, [], none⟩]⟩ = Except.error Err.unboundPlaceHolder :=
  ⟨(tensors_spec ⟨1, 0, [⟨10, [], some ⟨0, 100, 5⟩⟩]⟩).1 (by decide),
   (tensors_spec ⟨2, 0, [⟨11, [], none⟩]⟩).2 ⟨⟨11, [], none⟩, by decide, rfl⟩⟩

/-! ### Claim C5 -/

/-- **C5.**  After `set_(state_dict)` (dict keys distinct, as Python dict keys
are): every placeholder whose id is a key of the dict is bound to the
corresponding mapped value — the prior binding replaced, not merged, with id
and tags kept — every placeholder whose id is not a key keeps its previous
binding unchanged, and keys matching no placeholder raise no error and cause
no change (the call is total; the State keeps its identity, owner and
placeholder count, and every position falls under one of the two cases). -/
theorem set_spec (s : State) (d : List (Nat × Tensor))
    (hd : (d.map Prod.fst).Nodup) :
    (s.set_ d).oid = s.oid ∧ (s.set_ d).owner = s.owner ∧
    (s.set_ d).state_placeholders.length = s.state_placeholders.length ∧
    ∀ (i : Nat) (p : PlaceHolder), s.state_placeholders[i]? = some p →
      (s.set_ d).state_placeholders[i]? =
        some (match dictGet p.id d with
              | some t => { p with child := some t }
              | none => p) :=
  ⟨(set_oid d s).1, (set_oid d s).2.1, (set_oid d s).2.2, set_get d s hd⟩

/-- Witness for C5: State with placeholders `a` (id 1) and `b` (id 2), dict
`{1 : v1, 3 : v2}`; `a` is rebound to `v1`, `b` is unchanged and the
unmatched key 3 is ignored. -/
theorem set_spec_witness :
    (State.set_ ⟨1, 0, [⟨1, [], some ⟨0, 100, 5⟩⟩, ⟨2, [], some ⟨9, 101, 6⟩⟩]⟩
        [(1, ⟨4, 200, 7⟩), (3, ⟨5, 201, 8⟩)]).state_placeholders[0]? =
      some ⟨1, [], some ⟨4, 200, 7⟩⟩ ∧
    (State.set_ ⟨1, 0, [⟨1, [], some ⟨0, 100, 5⟩⟩, ⟨2, [], some ⟨9, 101, 6⟩⟩]⟩
        [(1, ⟨4, 200, 7⟩), (3, ⟨5, 201, 8⟩)]).state_placeholders[1]? =
      some ⟨2, [], some ⟨9, 101, 6⟩⟩ :=
  ⟨(set_spec ⟨1, 0, [⟨1, [], some ⟨0, 100, 5⟩⟩, ⟨2, [], some ⟨9, 101, 6⟩⟩]⟩
      [(1, ⟨4, 200, 7⟩), (3, ⟨5, 201, 8⟩)] (by decide)).2.2.2 0
      ⟨1, [], some ⟨0, 100, 5⟩⟩ rfl,
   (set_spec ⟨1, 0, [⟨1, [], some ⟨0, 100, 5⟩⟩, ⟨2, [], some ⟨9, 101, 6⟩⟩]⟩
      [(1, ⟨4, 200, 7⟩), (3, ⟨5, 201, 8⟩)] (by decide)).2.2.2 1
      ⟨2, [], some ⟨9, 101, 6⟩⟩ rfl⟩

/-! ### Claim C8 -/

/-- **C8.**  On a fully bound State (with distinct placeholder ids, per the
spec invariant), `clone_state_dict` returns a mapping from each placeholder's
id to an independent copy of its bound value: the copy keeps the value's syft
id and content but has a fresh object identity, and mutating any value
obtained from the returned mapping (writing through its object identity)
leaves the source State — every placeholder's bound value included —
unchanged.  `hfresh` expresses that the identity counter is fresh for the
source State. -/
theorem clone_state_dict_spec (s : State) (fresh : Nat)
    (hb : ∀ q ∈ s.state_placeholders, q.child.isSome)
    (hfresh : ∀ q ∈ s.state_placeholders, ∀ t, q.child = some t → t.oid < fresh)
    (hids : (s.state_placeholders.map PlaceHolder.id).Nodup) :
    ∃ d next, s.clone_state_dict fresh = Except.ok (d, next) ∧
      (∀ q ∈ s.state_placeholders, ∀ t, q.child = some t →
        ∃ c, dictGet q.id d = some c ∧
          c.id = t.id ∧ c.data = t.data ∧ c.oid ≠ t.oid) ∧
      (∀ e ∈ d, ∀ v : Int, s.mutateTensor e.snd.oid v = s) := by
  have h1 : s.clone_state_dict fresh =
      Except.ok (cloneList fresh s.state_placeholders,
        fresh + s.state_placeholders.length) := by
    unfold State.clone_state_dict
    exact cloneFold_eq s.state_placeholders fresh [] (by simp) hids hb
  refine ⟨_, _, h1, ?_, ?_⟩
  · intro q hq t ht
    obtain ⟨c, hc, hcid, hcdata, hcoid⟩ :=
      cloneList_get fresh s.state_placeholders hids q hq t ht
    refine ⟨c, hc, hcid, hcdata, fun he => ?_⟩
    have h3 := hfresh q hq t ht
    rw [he] at hcoid
    omega
  · intro e he v
    apply mutateTensor_noop
    intro q hq t ht heq
    have h2 := cloneList_oid_ge fresh s.state_placeholders e he
    have h3 := hfresh q hq t ht
    omega

/-- Witness for C8 at a concrete input. -/
theorem clone_state_dict_spec_witness :
    ∃ d next,
      State.clone_state_dict ⟨1, 0, [⟨10, [], some ⟨0, 100, 5⟩⟩]⟩ 50 =
        Except.ok (d, next) ∧
      (∀ q ∈ (⟨1, 0, [⟨10, [], some ⟨0, 100, 5⟩⟩]⟩ : State).state_placeholders,
        ∀ t, q.child = some t →
          ∃ c, dictGet q.id d = some c ∧
            c.id = t.id ∧ c.data = t.data ∧ c.oid ≠ t.oid) ∧
      (∀ e ∈ d, ∀ v : Int,
        (⟨1, 0, [⟨10, [], some ⟨0, 100, 5⟩⟩]⟩ : State).mutateTensor e.snd.oid v =
          ⟨1, 0, [⟨10, [], some ⟨0, 100, 5⟩⟩]⟩) :=
  clone_state_dict_spec ⟨1, 0, [⟨10, [], some ⟨0, 100, 5⟩⟩]⟩ 50
    (by decide)
    (by
      intro q hq t ht
      simp only [List.mem_singleton] at hq
      subst hq
      injection ht with ht
      subst ht
      decide)
    (by decide)

/-! ### Claim C2 -/

/-- **C2 counterexample.**  `detail` on halves that decode to sequences of
different lengths (two placeholders, one value; identity codec) raises no
error: the source performs no length check and its `zip` silently truncates
the pairing.  The call returns a normal State in which the first placeholder
is bound to the single value and the second keeps its decoded binding, and
the value is registered — refuting the claim that a mismatch is surfaced to
the caller as a malformed-input error. -/
theorem detail_mismatch_counterexample :
    State.detail (id : List PlaceHolder → List PlaceHolder)
        (id : List Tensor → List Tensor) ⟨7, []⟩
        ([⟨10, [], none⟩, ⟨11, [], some ⟨3, 103, 9⟩⟩], [⟨0, 100, 5⟩]) 99 =
      (⟨99, 7, [⟨10, [], some ⟨0, 100, 5⟩⟩, ⟨11, [], some ⟨3, 103, 9⟩⟩]⟩,
       ⟨7, [(100, ⟨0, 100, 5⟩)]⟩) ∧
    ([(⟨10, [], none⟩ : PlaceHolder), ⟨11, [], some ⟨3, 103, 9⟩⟩].length ≠
      [(⟨0, 100, 5⟩ : Tensor)].length) :=
  ⟨rfl, by decide⟩

/-- **C2 amended.**  With halves of different lengths, `detail` raises no
error and returns a State as usual: the State contains every decoded
placeholder (the longer half is not truncated, the shorter is not padded),
values are bound positionally up to the shorter of the two lengths, and
placeholders beyond the value count keep their decoded binding. -/
theorem detail_mismatch_spec {α β : Type} (detP : α → List PlaceHolder)
    (detT : β → List Tensor) (w : Worker) (st : α × β) (newOid : Nat)
    (hne : (detP st.fst).length ≠ (detT st.snd).length) :
    ((State.detail detP detT w st newOid).fst).state_placeholders.length =
      (detP st.fst).length ∧
    (∀ (i : Nat) (p : PlaceHolder) (t : Tensor),
      (detP st.fst)[i]? = some p → (detT st.snd)[i]? = some t →
      ((State.detail detP detT w st newOid).fst).state_placeholders[i]? =
        some (p.instantiate t)) ∧
    (∀ i : Nat, (detT st.snd).length ≤ i →
      ((State.detail detP detT w st newOid).fst).state_placeholders[i]? =
        (detP st.fst)[i]?) :=
  ⟨instantiateZip_length _ _,
   fun i p t hp ht => instantiateZip_get_lt _ _ i p t hp ht,
   fun i hi => instantiateZip_get_ge _ _ i hi⟩

/-- Witness for the amended C2 at the mismatched input of the
counterexample. -/
theorem detail_mismatch_spec_witness :
    ([(⟨10, [], none⟩ : PlaceHolder), ⟨11, [], some ⟨3, 103, 9⟩⟩].length ≠
      [(⟨0, 100, 5⟩ : Tensor)].length) ∧
    ((State.detail (id : List PlaceHolder → List PlaceHolder)
        (id : List Tensor → List Tensor) ⟨7, []⟩
        ([⟨10, [], none⟩, ⟨11, [], some ⟨3, 103, 9⟩⟩], [⟨0, 100, 5⟩])
        99).fst).state_placeholders.length =
      (id [(⟨10, [], none⟩ : PlaceHolder), ⟨11, [], some ⟨3, 103, 9⟩⟩]).length :=
  ⟨by decide,
   (detail_mismatch_spec (id : List PlaceHolder → List PlaceHolder)
     (id : List Tensor → List Tensor) ⟨7, []⟩
     ([⟨10, [], none⟩, ⟨11, [], some ⟨3, 103, 9⟩⟩], [⟨0, 100, 5⟩]) 99
     (by decide)).1⟩

/-! ### Claim C10 -/

/-- **C10.**  In `detail(worker, state_tuple)` every element of the detailed
value sequence is registered into the worker's registry under that value's
own id — regardless of whether it ends up paired with a placeholder, the
registration loop running over the whole value sequence before the binding
loop — and placeholder-value binding proceeds positionally over positions up
to the shorter of the two sequence lengths (beyond it, placeholders are kept
as decoded).  Value ids are assumed pairwise distinct, as global registry
identities are. -/
theorem detail_registration_spec {α β : Type} (detP : α → List PlaceHolder)
    (detT : β → List Tensor) (w : Worker) (st : α × β) (newOid : Nat)
    (hnd : ((detT st.snd).map Tensor.id).Nodup) :
    (∀ t ∈ detT st.snd,
      dictGet t.id ((State.detail detP detT w st newOid).snd).registry = some t) ∧
    (∀ (i : Nat) (p : PlaceHolder) (t : Tensor),
      (detP st.fst)[i]? = some p → (detT st.snd)[i]? = some t →
      ((State.detail detP detT w st newOid).fst).state_placeholders[i]? =
        some (p.instantiate t)) ∧
    (∀ i : Nat, (detT st.snd).length ≤ i →
      ((State.detail detP detT w st newOid).fst).state_placeholders[i]? =
        (detP st.fst)[i]?) :=
  ⟨fun t ht => registerAll_get (detT st.snd) w hnd t ht,
   fun i p t hp ht => instantiateZip_get_lt _ _ i p t hp ht,
   fun i hi => instantiateZip_get_ge _ _ i hi⟩

/-- Witness for C10: both values of a mismatched input — including the
unpaired one — are registered under their own ids. -/
theorem detail_registration_spec_witness :
    dictGet 100 ((State.detail (id : List PlaceHolder → List PlaceHolder)
        (id : List Tensor → List Tensor) ⟨7, []⟩
        (([⟨10, [], none⟩] : List PlaceHolder),
         [(⟨0, 100, 5⟩ : Tensor), ⟨3, 103, 9⟩]) 99).snd).registry =
      some ⟨0, 100, 5⟩ ∧
    dictGet 103 ((State.detail (id : List PlaceHolder → List PlaceHolder)
        (id : List Tensor → List Tensor) ⟨7, []⟩
        (([⟨10, [], none⟩] : List PlaceHolder),
         [(⟨0, 100, 5⟩ : Tensor), ⟨3, 103, 9⟩]) 99).snd).registry =
      some ⟨3, 103, 9⟩ :=
  ⟨(detail_registration_spec (id : List PlaceHolder → List PlaceHolder)
      (id : List Tensor → List Tensor) ⟨7, []⟩
      (([⟨10, [], none⟩] : List PlaceHolder),
       [(⟨0, 100, 5⟩ : Tensor), ⟨3, 103, 9⟩]) 99 (by decide)).1
      ⟨0, 100, 5⟩ (by decide),
   (detail_registration_spec (id : List PlaceHolder → List PlaceHolder)
      (id : List Tensor → List Tensor) ⟨7, []⟩
      (([⟨10, [], none⟩] : List PlaceHolder),
       [(⟨0, 100, 5⟩ : Tensor), ⟨3, 103, 9⟩]) 99 (by decide)).1
      ⟨3, 103, 9⟩ (by decide)⟩

/-! ### Claim C4 -/

/-- **C4.**  Round trip: for a State whose `N` placeholders are all bound,
assuming the generic codec's detail is a left inverse of its simplify on the
placeholder sequence and on the value sequence (`hP`, `hT`), and value ids
are globally distinct, `detail(worker, simplify(worker, state))` returns a
fresh State owned by the worker whose placeholder sequence equals the
original one — so it has `N` placeholders, the one at each position bound to
a value equal in content to the original value at that position — and every
value is registered in the worker's registry under its own identity. -/
theorem simplify_detail_roundtrip {α β : Type}
    (simpP : List PlaceHolder → α) (simpT : List Tensor → β)
    (detP : α → List PlaceHolder) (detT : β → List Tensor)
    (s : State) (w : Worker) (newOid : Nat)
    (hb : ∀ q ∈ s.state_placeholders, q.child.isSome)
    (hP : detP (simpP s.state_placeholders) = s.state_placeholders)
    (hT : detT (simpT (childList s.state_placeholders)) =
      childList s.state_placeholders)
    (hnd : ((childList s.state_placeholders).map Tensor.id).Nodup) :
    ∃ wire, s.simplify simpP simpT = Except.ok wire ∧
      (State.detail detP detT w wire newOid).fst.oid = newOid ∧
      (State.detail detP detT w wire newOid).fst.owner = w.oid ∧
      (State.detail detP detT w wire newOid).fst.state_placeholders =
        s.state_placeholders ∧
      (∀ t ∈ childList s.state_placeholders,
        dictGet t.id ((State.detail detP detT w wire newOid).snd).registry =
          some t) := by
  have hsimp : s.simplify simpP simpT =
      Except.ok (simpP s.state_placeholders,
        simpT (childList s.state_placeholders)) := by
    simp only [State.simplify, State.tensors]
    rw [tensorsLoop_eq s.state_placeholders hb]
    rfl
  refine ⟨_, hsimp, rfl, rfl, ?_, ?_⟩
  · show instantiateZip (detP (simpP s.state_placeholders))
        (detT (simpT (childList s.state_placeholders))) = s.state_placeholders
    rw [hP, hT]
    exact instantiateZip_self s.state_placeholders hb
  · intro t ht
    show dictGet t.id
        (registerAll w (detT (simpT (childList s.state_placeholders)))).registry =
      some t
    rw [hT]
    exact registerAll_get _ w hnd t ht

/-- Witness for C4 with the identity codec at a concrete two-placeholder
State. -/
theorem simplify_detail_roundtrip_witness :
    ∃ wire,
      State.simplify (id : List PlaceHolder → List PlaceHolder)
          (id : List Tensor → List Tensor)
          ⟨1, 0, [⟨10, [], some ⟨0, 100, 5⟩⟩, ⟨11, [], some ⟨3, 103, 9⟩⟩]⟩ =
        Except.ok wire ∧
      (State.detail (id : List PlaceHolder → List PlaceHolder)
          (id : List Tensor → List Tensor) ⟨7, []⟩ wire 99).fst.oid = 99 ∧
      (State.detail (id : List PlaceHolder → List PlaceHolder)
          (id : List Tensor → List Tensor) ⟨7, []⟩ wire 99).fst.owner =
        (⟨7, []⟩ : Worker).oid ∧
      (State.detail (id : List PlaceHolder → List PlaceHolder)
          (id : List Tensor → List Tensor) ⟨7, []⟩ wire 99).fst.state_placeholders =
        (⟨1, 0, [⟨10, [], some ⟨0, 100, 5⟩⟩, ⟨11, [], some ⟨3, 103, 9⟩⟩]⟩ :
          State).state_placeholders ∧
      (∀ t ∈ childList (⟨1, 0, [⟨10, [], some ⟨0, 100, 5⟩⟩,
            ⟨11, [], some ⟨3, 103, 9⟩⟩]⟩ : State).state_placeholders,
        dictGet t.id ((State.detail (id : List PlaceHolder → List PlaceHolder)
          (id : List Tensor → List Tensor) ⟨7, []⟩ wire 99).snd).registry =
          some t) :=
  simplify_detail_roundtrip id id id id
    ⟨1, 0, [⟨10, [], some ⟨0, 100, 5⟩⟩, ⟨11, [], some ⟨3, 103, 9⟩⟩]⟩ ⟨7, []⟩ 99
    (by decide) rfl rfl (by decide)

/-! ### Iterated-read lemmas -/

theorem iterateRead_eq (inner : State) (p : Plan) (n : Nat)
    (hne : p.state.oid ≠ inner.oid)
    (hb : ∀ q ∈ inner.state_placeholders, q.child.isSome) :
    iterateRead inner n p = Except.ok ((roundPlan inner)^[n] p) := by
  induction n generalizing p with
  | zero => simp [iterateRead]
  | succ m ih =>
    have h1 : iterateRead inner (m + 1) p =
        iterateRead inner m (roundPlan inner p) := by
      rw [iterateRead, read_eq_promote inner p hne hb]
    rw [h1, ih (roundPlan inner p) hne, Function.iterate_succ_apply]

theorem roundPlan_iterate_basic (inner : State) (p : Plan) (n : Nat) :
    ((roundPlan inner)^[n] p).var_count =
        p.var_count + n * inner.state_placeholders.length ∧
      ((roundPlan inner)^[n] p).state.oid = p.state.oid ∧
      ∃ app, ((roundPlan inner)^[n] p).state.state_placeholders =
        p.state.state_placeholders ++ app ∧
        app.length = n * inner.state_placeholders.length := by
  induction n generalizing p with
  | zero => exact ⟨by simp, by simp, [], by simp, by simp⟩
  | succ m ih =>
    rw [Function.iterate_succ_apply]
    obtain ⟨h1, h2, app, h3, h4⟩ := ih (roundPlan inner p)
    refine ⟨?_, h2, promotedList p.var_count inner.state_placeholders ++ app, ?_, ?_⟩
    · rw [h1]
      show p.var_count + inner.state_placeholders.length +
          m * inner.state_placeholders.length = _
      rw [Nat.succ_mul]
      omega
    · rw [h3]
      show (p.state.state_placeholders ++
          promotedList p.var_count inner.state_placeholders) ++ app = _
      rw [List.append_assoc]
    · rw [List.length_append, promotedList_length, h4, Nat.succ_mul]
      omega

theorem roundPlan_iterate_map (inner : State) (p : Plan) (n : Nat)
    (hb : ∀ q ∈ inner.state_placeholders, q.child.isSome)
    (hnd : (childIds inner.state_placeholders).Nodup)
    (hm : p.placeholders = []) (hn : 1 ≤ n) :
    ((roundPlan inner)^[n] p).placeholders =
      promotedAList (p.var_count + (n - 1) * inner.state_placeholders.length)
        inner.state_placeholders := by
  induction n with
  | zero => omega
  | succ m ih =>
    cases m with
    | zero =>
      rw [Function.iterate_one]
      show promoteMapFold p.var_count p.placeholders inner.state_placeholders = _
      rw [hm, promoteMapFold_disjoint inner.state_placeholders p.var_count []
        (by simp) hnd hb]
      simp
    | succ m0 =>
      rw [Function.iterate_succ_apply']
      have hvc := (roundPlan_iterate_basic inner p (m0 + 1)).1
      have hmap := ih (by omega)
      show promoteMapFold ((roundPlan inner)^[m0 + 1] p).var_count
          ((roundPlan inner)^[m0 + 1] p).placeholders inner.state_placeholders = _
      rw [hmap, hvc]
      have hsplit : promotedAList
          (p.var_count + (m0 + 1 - 1) * inner.state_placeholders.length)
          inner.state_placeholders =
        [] ++ promotedAList
          (p.var_count + (m0 + 1 - 1) * inner.state_placeholders.length)
          inner.state_placeholders := by simp
      rw [hsplit, promoteMapFold_overwrite inner.state_placeholders _ [] _
        (promotedAList_keys _ inner.state_placeholders hb) (by simp) hnd hb]
      simp

/-! ### Claim C9 -/

/-- **C9.**  For an inner State with `K` placeholders of pairwise distinct
bound-value ids promoted into an ancestor plan (initially with an empty
identity map) by `n ≥ 1` successive `read()` calls: the ancestor map holds
exactly one entry per bound-value id — `K` entries, the entry of the `j`-th
inner placeholder (0-based) pointing to the copy appended by the most recent
call, whose positional counter is `C + (n-1)K + j` — while the ancestor's
`state_placeholders` has grown by exactly `n * K` appended copies and the
slot counter by `n * K`: repeated promotion overwrites map entries but
accumulates sequence entries. -/
theorem repeated_read_map_spec (inner : State) (parent : Plan) (n : Nat)
    (hn : 1 ≤ n) (hne : parent.state.oid ≠ inner.oid)
    (hb : ∀ q ∈ inner.state_placeholders, q.child.isSome)
    (hnd : (childIds inner.state_placeholders).Nodup)
    (hm : parent.placeholders = []) :
    ∃ pn, iterateRead inner n parent = Except.ok pn ∧
      pn.var_count = parent.var_count + n * inner.state_placeholders.length ∧
      (∃ app, pn.state.state_placeholders =
        parent.state.state_placeholders ++ app ∧
        app.length = n * inner.state_placeholders.length) ∧
      pn.placeholders.length = inner.state_placeholders.length ∧
      (∀ (j : Nat) (q : PlaceHolder) (t : Tensor),
        inner.state_placeholders[j]? = some q → q.child = some t →
        dictGet t.id pn.placeholders =
          some (promotedCopy
            (parent.var_count +
              (n - 1) * inner.state_placeholders.length + j) q)) := by
  refine ⟨_, iterateRead_eq inner parent n hne hb, ?_, ?_, ?_, ?_⟩
  · exact (roundPlan_iterate_basic inner parent n).1
  · obtain ⟨_, _, app, h3, h4⟩ := roundPlan_iterate_basic inner parent n
    exact ⟨app, h3, h4⟩
  · rw [roundPlan_iterate_map inner parent n hb hnd hm hn]
    exact promotedAList_length _ _ hb
  · intro j q t hj ht
    rw [roundPlan_iterate_map inner parent n hb hnd hm hn]
    exact promotedAList_get _ _ hnd hb j q t hj ht

/-- Witness for C9: two successive reads of a one-placeholder inner State
into a fresh ancestor. -/
theorem repeated_read_map_spec_witness :
    (1 : Nat) ≤ 2 ∧
    ∃ pn, iterateRead ⟨1, 0, [⟨10, [], some ⟨0, 100, 5⟩⟩]⟩ 2 ⟨⟨2, 0, []⟩, [], 0⟩ =
        Except.ok pn ∧
      pn.var_count = 0 + 2 * 1 ∧
      pn.placeholders.length = 1 :=
  ⟨by decide, by
    obtain ⟨pn, h1, h2, _, h4, _⟩ :=
      repeated_read_map_spec ⟨1, 0, [⟨10, [], some ⟨0, 100, 5⟩⟩]⟩
        ⟨⟨2, 0, []⟩, [], 0⟩ 2 (by decide) (by decide) (by decide) (by decide) rfl
    exact ⟨pn, h1, h2, h4⟩⟩

end Syft
